import Mathlib

/-!
Verification of the candidate-extraction core of `tailwindcss` (oxide).

Shallow embedding of `src/oxide/crates/core/src/lib.rs`. Bytes are `Nat`
(values 0..255), byte blobs are `List Nat`, and the Rust `String`s produced
by the pipeline are represented by their UTF-8 byte sequences (`List Nat`);
Rust sorts `String`s by their bytes, so byte-lexicographic order on the
byte lists is exactly the Rust order. The filesystem is an oracle
`String → Option (List Nat)` (`std::fs::read`: `none` is a read error).
The parallel `rayon` map/collect preserves element order, so it is embedded
as `List.map`; the unordered `reduce` union is covered by permutation
invariance theorems.
-/

namespace Tailwind

/-! ### UTF-8 validity

A byte-level DFA equivalent to Rust's `core::str` UTF-8 validation
(`String::from_utf8` succeeds exactly on byte sequences accepted here):
ASCII, C2..DF + 1 continuation, E0 A0..BF, E1..EC/EE/EF + 2 continuations,
ED 80..9F (no surrogates), F0 90..BF, F1..F3 + 3 continuations,
F4 80..8F (≤ U+10FFFF). -/

inductive Utf8S where
  | start | one | two | three | sE0 | sED | sF0 | sF4 | err
deriving DecidableEq, Repr

def utf8Step : Utf8S → Nat → Utf8S
  | .start, b =>
    if b < 0x80 then .start
    else if 0xC2 ≤ b && b ≤ 0xDF then .one
    else if b == 0xE0 then .sE0
    else if (0xE1 ≤ b && b ≤ 0xEC) || b == 0xEE || b == 0xEF then .two
    else if b == 0xED then .sED
    else if b == 0xF0 then .sF0
    else if 0xF1 ≤ b && b ≤ 0xF3 then .three
    else if b == 0xF4 then .sF4
    else .err
  | .one, b => if 0x80 ≤ b && b ≤ 0xBF then .start else .err
  | .two, b => if 0x80 ≤ b && b ≤ 0xBF then .one else .err
  | .three, b => if 0x80 ≤ b && b ≤ 0xBF then .two else .err
  | .sE0, b => if 0xA0 ≤ b && b ≤ 0xBF then .one else .err
  | .sED, b => if 0x80 ≤ b && b ≤ 0x9F then .one else .err
  | .sF0, b => if 0x90 ≤ b && b ≤ 0xBF then .two else .err
  | .sF4, b => if 0x80 ≤ b && b ≤ 0x8F then .two else .err
  | .err, _ => .err

/-- Validity of a byte sequence starting from DFA state `s`. -/
def validUtf8From (s : Utf8S) (l : List Nat) : Bool :=
  l.foldl utf8Step s == .start

/-- `l` is a complete, valid UTF-8 byte sequence. -/
def validUtf8 (l : List Nat) : Bool :=
  validUtf8From .start l

/-! ### The Boundary Classifier and Candidate Extractor

Modelled from the spec: the `parser::Extractor` module of this crate is not
among the provided sources (only `Extractor::unique(input, Default::default())`
is called from `parse_all_blobs`).  The definitions below follow §4.1/§4.2 of
the specification: the identifier byte table (ASCII letters, digits, and
`- _ . : / ! @ % #`), bracket nesting in which every byte continues the
candidate, quoted spans inside brackets in which even `]` is inert, closing
on any other byte, discarding empty candidates, and closing a dangling
candidate at end of input. -/

/-- Modelled from the spec (§4.1): the fixed identifier-start byte table:
ASCII letters, digits, `-`, `_`, `.`, `:`, `/`, `!`, `@`, `%`, `#`. -/
def isStartChar (b : Nat) : Bool :=
  (65 ≤ b && b ≤ 90) || (97 ≤ b && b ≤ 122) || (48 ≤ b && b ≤ 57) ||
  b == 45 || b == 95 || b == 46 || b == 58 || b == 47 ||
  b == 33 || b == 64 || b == 37 || b == 35

/-- Modelled from the spec (§4.1): the identifier-continue table is the same
fixed table as identifier-start. -/
def isContChar (b : Nat) : Bool := isStartChar b

/-- Modelled from the spec (§4.1): quote bytes are `'` (39) and `"` (34). -/
def isQuote (b : Nat) : Bool := b == 39 || b == 34

/-- In-progress candidate state: accumulated bytes, bracket depth, and the
open quote byte (if a quoted span inside brackets is open). -/
structure ScanSt where
  acc : List Nat
  depth : Nat
  quote : Option Nat
deriving DecidableEq, Repr

/-- Modelled from the spec (§4.1–§4.2): one left-to-right scan of a blob,
returning the candidate byte-slices in scan order (with repetitions). -/
def extract : List Nat → Option ScanSt → List (List Nat)
  | [], none => []
  | [], some st => [st.acc]
  | b :: rest, none =>
    if isStartChar b then
      extract rest (some ⟨[b], 0, none⟩)
    else
      extract rest none
  | b :: rest, some st =>
    match st.quote with
    | some q =>
      if b == q then
        extract rest (some ⟨st.acc ++ [b], st.depth, none⟩)
      else
        extract rest (some ⟨st.acc ++ [b], st.depth, some q⟩)
    | none =>
      if st.depth > 0 then
        if b == 91 then
          extract rest (some ⟨st.acc ++ [b], st.depth + 1, none⟩)
        else if b == 93 then
          extract rest (some ⟨st.acc ++ [b], st.depth - 1, none⟩)
        else if isQuote b then
          extract rest (some ⟨st.acc ++ [b], st.depth, some b⟩)
        else
          extract rest (some ⟨st.acc ++ [b], st.depth, none⟩)
      else
        if b == 91 then
          extract rest (some ⟨st.acc ++ [b], 1, none⟩)
        else if isContChar b then
          extract rest (some ⟨st.acc ++ [b], 0, none⟩)
        else
          st.acc :: extract rest none

/-- Modelled from the spec (§4.2): `Extractor::unique` — the set of unique
candidate byte-slices of one blob. -/
def Extractor_unique (blob : List Nat) : List (List Nat) :=
  (extract blob none).dedup

/-! ### Byte-lexicographic order on byte sequences

Rust's `Vec<String>::sort` uses `Ord` on `String`, which is lexicographic
on the UTF-8 bytes. -/

def lexLe : List Nat → List Nat → Bool
  | [], _ => true
  | _ :: _, [] => false
  | a :: as, b :: bs => if a < b then true else if b < a then false else lexLe as bs

/-- The ordering relation used for the final sort. -/
def LexLe (a b : List Nat) : Prop := lexLe a b = true

instance : DecidableRel LexLe := fun a b => by
  unfold LexLe; infer_instance

/-! ### The extraction pipeline (`lib.rs`) -/

/-- `ChangedContent` (lib.rs lines 17–22): `file` is an optional path
(modelled as a `String` key into the filesystem oracle), `content` an
optional inline literal (its UTF-8 bytes), `extension` a hint string. -/
structure ChangedContent where
  file : Option String
  content : Option (List Nat)
  extension : String

/-- One arm of `read_all_files`'s `match (c.file, c.content)` (lib.rs
lines 160–170): a file source reads through the oracle and degrades to an
empty blob on a read error; an inline source is taken by value; any other
combination degrades to the `Default::default()` empty blob. -/
def readOne (fs : String → Option (List Nat)) (c : ChangedContent) : List Nat :=
  match c.file, c.content with
  | some f, none => (fs f).getD []
  | none, some content => content
  | _, _ => []

/-- `read_all_files` (lib.rs lines 151–172): the parallel ordered map over
the changed-content list (`into_par_iter().map(...).collect()` preserves
element order). -/
def read_all_files (fs : String → Option (List Nat))
    (changed_content : List ChangedContent) : List (List Nat) :=
  changed_content.map (readOne fs)

/-- The multiset of candidates produced by the parallel extract phase of
`parse_all_blobs` before the `reduce` union (lib.rs lines 179–185). -/
def allCandidates (blobs : List (List Nat)) : List (List Nat) :=
  (blobs.map Extractor_unique).flatten

/-- The deterministic tail of `parse_all_blobs`: set-union semantics of the
`reduce` (`dedup`) followed by `result.sort()` (lib.rs lines 182–195). -/
def sortedUnion (l : List (List Nat)) : List (List Nat) :=
  List.insertionSort LexLe l.dedup

/-- `parse_all_blobs` (lib.rs lines 175–196): per-blob unique extraction,
set union across blobs, unchecked reinterpretation as strings (identity on
the byte sequences), and the final sort. -/
def parse_all_blobs (blobs : List (List Nat)) : List (List Nat) :=
  sortedUnion (allCandidates blobs)

/-- The `DEBUG` environment toggle test in `parse_candidate_strings_from_files`
(lib.rs line 25): `matches!(std::env::var("DEBUG"), Ok(value) if value.eq("*")
|| value.eq("1") || value.eq("true") || value.contains("tailwind"))`. -/
def listPrefixEq : List Char → List Char → Bool
  | [], _ => true
  | _ :: _, [] => false
  | a :: as, b :: bs => a == b && listPrefixEq as bs

def containsSub (needle : List Char) : List Char → Bool
  | [] => needle.isEmpty
  | c :: t => listPrefixEq needle (c :: t) || containsSub needle t

def debugEnabled (debugVar : Option String) : Bool :=
  match debugVar with
  | none => false
  | some value =>
    value == "*" || value == "1" || value == "true" ||
      containsSub "tailwind".data value.data

/-- `parse_candidate_strings_from_files` (lib.rs lines 24–35).  The first
component is the returned candidate list; the second records the only
effect of the `DEBUG` toggle, namely whether the tracing subscriber is
installed. -/
def parse_candidate_strings_from_files (debugVar : Option String)
    (fs : String → Option (List Nat)) (changed_content : List ChangedContent) :
    List (List Nat) × Bool :=
  (parse_all_blobs (read_all_files fs changed_content), debugEnabled debugVar)

/-! ### The Content Path Resolver (`lib.rs` lines 42–148)

Paths are modelled structurally: a path is a list of directory components
plus an optional final normal file-name component (`Path::file_name()`
returns `None` for a bare root or a path ending in `..`; the code's
`unwrap()` of it is modelled by an `Option Bool` result, `none` standing
for the panic).  Component names are Lean `String`s; `Path::display` joins
components with `/`. -/

structure RsPath where
  parent : List String
  fname : Option String
deriving DecidableEq, Repr

/-- A file entry produced by the directory walk (walked files always have a
final file-name component). -/
structure FileEnt where
  parent : List String
  fname : String
deriving DecidableEq, Repr

/-- The three static policy tables.  Modelled from the spec (§6): the
fixture files `fixtures/binary-extensions.txt`, `fixtures/ignored-extensions.txt`
and `fixtures/ignored-files.txt` read by `include_str!` are not among the
provided sources; the tables are therefore abstract parameters here. -/
structure PolicyTables where
  binaryExtensions : List String
  ignoredExtensions : List String
  ignoredFiles : List String

/-- Modelled from the spec (§8): a concrete instantiation of the missing
fixture tables; the spec attests `png` as a binary extension. -/
def specTables : PolicyTables :=
  { binaryExtensions := ["gif", "jpeg", "jpg", "png", "woff", "woff2"]
    ignoredExtensions := ["css", "less", "sass", "scss", "lock"]
    ignoredFiles := ["package-lock.json", "yarn.lock"] }

/-- Rust `Path::extension()` on a file name: the portion after the final
`.`, or `none` when there is no `.` or the name starts with its only `.`.
Implemented over the reversed character list: the extension is what comes
strictly before the first `.` of the reversed name, provided something
remains after it. -/
def extOfRev : List Char → Option (List Char)
  | [] => none
  | c :: cs =>
    if c == '.' then
      if cs.isEmpty then none else some []
    else
      match extOfRev cs with
      | none => none
      | some e => some (c :: e)

def rsExtension (f : String) : Option String :=
  (extOfRev f.data.reverse).map (fun e => String.mk e.reverse)

/-- `is_allowed_content_path` (lib.rs lines 115–148) for a path that has a
file-name component: known ignored file names are rejected, then the
extension must exist and avoid both the ignored-extension and the
binary-extension tables. -/
def is_allowed_file (tbl : PolicyTables) (f : String) : Bool :=
  if tbl.ignoredFiles.contains f then
    false
  else
    match rsExtension f with
    | none => false
    | some ext =>
      !tbl.ignoredExtensions.contains ext && !tbl.binaryExtensions.contains ext

/-- `is_allowed_content_path` (lib.rs lines 115–148).  The code begins with
`path.file_name().unwrap()`; the panic on a path without a file-name
component is modelled as `none`. -/
def is_allowed_content_path (tbl : PolicyTables) (p : RsPath) : Option Bool :=
  match p.fname with
  | none => none
  | some f => some (is_allowed_file tbl f)

/-- The directory arm of the `filter_entry` closure in
`resolve_content_paths` (lib.rs lines 46–54):
`entry.file_name().to_str().map(|s| s != ".git").unwrap_or(false)`.
Directory names are raw byte sequences (`OsStr`); `to_str()` succeeds
exactly on valid UTF-8, and comparing the decoded string with `".git"`
is byte equality with its UTF-8 bytes `[46, 103, 105, 116]` because UTF-8
decoding is injective. -/
def walkDirKept (name : List Nat) : Bool :=
  validUtf8 name && name != [46, 103, 105, 116]

/-- Rust `Ord` on `String` (byte order): lexicographic comparison of the
character sequences (equivalent to UTF-8 byte order). -/
def strLtChars : List Char → List Char → Bool
  | [], [] => false
  | [], _ :: _ => true
  | _ :: _, [] => false
  | a :: as, b :: bs =>
    if a.toNat < b.toNat then true
    else if b.toNat < a.toNat then false
    else strLtChars as bs

def strLt (a b : String) : Bool := strLtChars a.data b.data

/-- Sorted-set insertion used for `BTreeSet<String>` (byte order). -/
def insertStr (x : String) : List String → List String
  | [] => [x]
  | y :: ys =>
    if x = y then y :: ys
    else if strLt x y then x :: y :: ys
    else y :: insertStr x ys

/-- `BTreeMap<PathBuf, _>` key order: componentwise lexicographic. -/
def pathLt : List String → List String → Bool
  | [], [] => false
  | [], _ :: _ => true
  | _ :: _, [] => false
  | a :: as, b :: bs =>
    if strLt a b then true else if strLt b a then false else pathLt as bs

/-- Insertion into the sorted group map (`groups.entry(parent).or_default()
.insert(extension)`, lib.rs lines 64–78). -/
def insertGroup (parent : List String) (ext : String) :
    List (List String × List String) → List (List String × List String)
  | [] => [(parent, [ext])]
  | (p, es) :: gs =>
    if parent = p then (p, insertStr ext es) :: gs
    else if pathLt parent p then (parent, [ext]) :: (p, es) :: gs
    else (p, es) :: insertGroup parent ext gs

/-- The group map of `resolve_content_paths`: surviving files grouped by
parent directory, each mapped to its sorted set of distinct extensions. -/
def contentGroups (tbl : PolicyTables) (walked : List FileEnt) :
    List (List String × List String) :=
  (walked.filter (fun e =>
      (is_allowed_content_path tbl ⟨e.parent, some e.fname⟩).getD false)).foldl
    (fun gs e => insertGroup e.parent ((rsExtension e.fname).getD "") gs) []

def displayPath (comps : List String) : String :=
  String.intercalate "/" comps

/-- Pattern emission for one directory group (lib.rs lines 83–104):
`"{dir}/{seg}.{ext}"` for a single extension and
`"{dir}/{seg}.\x7b{e1,e2,...}\x7d"` for several, where the glob segment is
`*` when the directory is the root and `**/*` otherwise. -/
def emitGroup (root : List String) (g : List String × List String) : List String :=
  match g.2 with
  | [] => []
  | [e] =>
    [displayPath g.1 ++ "/" ++ (if g.1 = root then "*" else "**/*") ++ "." ++ e]
  | es =>
    [displayPath g.1 ++ "/" ++ (if g.1 = root then "*" else "**/*") ++
      ".\x7b" ++ String.intercalate "," es ++ "\x7d"]

/-- `resolve_content_paths` (lib.rs lines 42–105), parameterised by the
list of file entries the directory walk yields (the walk itself is the
external `ignore::WalkBuilder`). -/
def resolve_content_paths (tbl : PolicyTables) (root : List String)
    (walked : List FileEnt) : List String :=
  ((contentGroups tbl walked).map (emitGroup root)).flatten

/-- Follows the spec's words (§4.3), for comparison with the code: one
pattern per directory group, `*` for the root directory and `**/*`
otherwise, with a brace-alternation list when several extensions survive. -/
def specGlobPattern (root : List String) (dir : List String)
    (exts : List String) : String :=
  match exts with
  | [e] =>
    displayPath dir ++ "/" ++ (if dir = root then "*" else "**/*") ++ "." ++ e
  | es =>
    displayPath dir ++ "/" ++ (if dir = root then "*" else "**/*") ++
      ".\x7b" ++ String.intercalate "," es ++ "\x7d"

/-- The invariant tying the scanner state to the UTF-8 DFA state of the
bytes consumed so far: the accumulated candidate's DFA state is the global
prefix state, quotes are only open inside brackets, and outside brackets
the prefix state is `start` (candidates there only consume ASCII). -/
def ScanInv : Option ScanSt → Utf8S → Prop
  | none, _ => True
  | some sc, s =>
    sc.acc.foldl utf8Step .start = s ∧
    (sc.quote.isSome = true → 0 < sc.depth) ∧
    (sc.quote = none → sc.depth = 0 → s = .start)


/-! ### UTF-8 facts about the scanner -/

theorem foldl_utf8Step_err (l : List Nat) : l.foldl utf8Step .err = .err := by
  induction l with
  | nil => rfl
  | cons b t ih => simpa [utf8Step] using ih

theorem utf8Step_ascii_start {b : Nat} (hb : b < 0x80) :
    utf8Step .start b = .start := by
  simp [utf8Step, hb]

theorem utf8Step_ascii_ne_start {s : Utf8S} {b : Nat} (hb : b < 0x80)
    (hs : s ≠ .start) : utf8Step s b = .err := by
  cases s
  case start => exact absurd rfl hs
  all_goals simp [utf8Step] <;> omega

/-- In a byte sequence that completes validly from state `s`, an ASCII byte
can only be consumed at the start state (continuation bytes are ≥ `0x80`). -/
theorem ascii_forces_start {s : Utf8S} {b : Nat} {l : List Nat}
    (h : validUtf8From s (b :: l) = true) (hb : b < 0x80) : s = .start := by
  by_contra hs
  have h' : validUtf8From (utf8Step s b) l = true := h
  rw [utf8Step_ascii_ne_start hb hs] at h'
  simp [validUtf8From, foldl_utf8Step_err] at h'

theorem isStartChar_ascii {b : Nat} (h : isStartChar b = true) : b < 0x80 := by
  simp [isStartChar] at h
  omega

theorem foldl_utf8_snoc (acc : List Nat) (b : Nat) :
    (acc ++ [b]).foldl utf8Step .start =
      utf8Step (acc.foldl utf8Step .start) b := by
  simp [List.foldl_append]

/-- Every candidate the scanner emits from a suffix that completes validly
from the current DFA state is valid UTF-8, given the scan invariant. -/
theorem extract_valid (rest : List Nat) : ∀ (st : Option ScanSt) (s : Utf8S),
    validUtf8From s rest = true → ScanInv st s →
    ∀ c ∈ extract rest st, validUtf8 c = true := by
  induction rest with
  | nil =>
    intro st s hv hinv c hc
    match st with
    | none => simp [extract] at hc
    | some sc =>
      simp only [extract, List.mem_singleton] at hc
      subst hc
      have hs : s = .start := by simpa [validUtf8From] using hv
      rcases hinv with ⟨h1, -, -⟩
      simp [validUtf8, validUtf8From, h1, hs]
  | cons b t ih =>
    intro st s hv hinv c hc
    have hv' : validUtf8From (utf8Step s b) t = true := hv
    match st with
    | none =>
      by_cases hb : isStartChar b = true
      · have hba : b < 0x80 := isStartChar_ascii hb
        have hs : s = .start := ascii_forces_start hv hba
        subst hs
        simp only [extract, hb, if_true] at hc
        refine ih _ .start ?_ ?_ c hc
        · rw [utf8Step_ascii_start hba] at hv'
          exact hv'
        · refine ⟨?_, by simp, fun _ _ => rfl⟩
          simp [List.foldl, utf8Step_ascii_start hba]
      · simp only [extract, hb, if_false] at hc
        exact ih none (utf8Step s b) hv' trivial c hc
    | some sc =>
      rcases sc with ⟨acc, depth, quote⟩
      rcases hinv with ⟨h1, h2, h3⟩
      cases quote with
      | some q =>
        have hdep : 0 < depth := h2 rfl
        by_cases hbq : (b == q) = true
        · simp only [extract, hbq, if_true] at hc
          refine ih _ (utf8Step s b) hv' ?_ c hc
          refine ⟨by simp [foldl_utf8_snoc, h1], by simp, fun _ h0 => ?_⟩
          exact absurd h0 (show depth ≠ 0 by omega)
        · simp only [extract, hbq, if_false] at hc
          refine ih _ (utf8Step s b) hv' ?_ c hc
          exact ⟨by simp [foldl_utf8_snoc, h1], fun _ => hdep, by simp⟩
      | none =>
        by_cases hdep : depth > 0
        · by_cases hb91 : (b == 91) = true
          · simp only [extract, hdep, if_true, hb91] at hc
            refine ih _ (utf8Step s b) hv' ?_ c hc
            exact ⟨by simp [foldl_utf8_snoc, h1], by simp,
              fun _ h0 => absurd h0 (show depth + 1 ≠ 0 by omega)⟩
          · by_cases hb93 : (b == 93) = true
            · simp only [extract, hdep, if_true, hb91, if_false, hb93] at hc
              have hs : s = .start :=
                ascii_forces_start hv (by simp at hb93; omega)
              subst hs
              refine ih _ (utf8Step .start b) hv' ?_ c hc
              have hstep : utf8Step .start b = .start :=
                utf8Step_ascii_start (by simp at hb93; omega)
              exact ⟨by simp [foldl_utf8_snoc, h1], by simp,
                fun _ _ => hstep⟩
            · by_cases hbq : isQuote b = true
              · simp only [extract, hdep, if_true, hb91, hb93, if_false, hbq] at hc
                refine ih _ (utf8Step s b) hv' ?_ c hc
                exact ⟨by simp [foldl_utf8_snoc, h1], fun _ => hdep, by simp⟩
              · simp only [extract, hdep, if_true, hb91, hb93, hbq, if_false] at hc
                refine ih _ (utf8Step s b) hv' ?_ c hc
                exact ⟨by simp [foldl_utf8_snoc, h1], by simp,
                  fun _ h0 => absurd h0 (show depth ≠ 0 by omega)⟩
        · have hd0 : depth = 0 := by omega
          have hs : s = .start := h3 rfl hd0
          subst hs
          by_cases hb91 : (b == 91) = true
          · simp only [extract, hdep, if_false, hb91, if_true] at hc
            have hstep : utf8Step .start b = .start :=
              utf8Step_ascii_start (by simp at hb91; omega)
            refine ih _ (utf8Step .start b) hv' ?_ c hc
            exact ⟨by simp [foldl_utf8_snoc, h1], by simp, fun _ _ => hstep⟩
          · by_cases hbc : isContChar b = true
            · simp only [extract, hdep, if_false, hb91, hbc, if_true] at hc
              have hstep : utf8Step .start b = .start :=
                utf8Step_ascii_start (isStartChar_ascii hbc)
              refine ih _ (utf8Step .start b) hv' ?_ c hc
              exact ⟨by simp [foldl_utf8_snoc, h1], by simp, fun _ _ => hstep⟩
            · have hext : extract (b :: t) (some ⟨acc, depth, none⟩) =
                  acc :: extract t none := by
                simp only [extract]
                rw [if_neg (by simpa using hdep), if_neg hb91, if_neg hbc]
              rw [hext, List.mem_cons] at hc
              rcases hc with hc | hc
              · subst hc
                simp [validUtf8, validUtf8From, h1]
              · exact ih none (utf8Step .start b) hv' trivial c hc

/-! ### Order facts for the final sort -/

theorem lexLe_total (a b : List Nat) : lexLe a b = true ∨ lexLe b a = true := by
  induction a generalizing b with
  | nil => exact .inl rfl
  | cons x xs ih =>
    cases b with
    | nil => exact .inr rfl
    | cons y ys =>
      rcases Nat.lt_trichotomy x y with h | h | h
      · left; simp [lexLe, h]
      · subst h
        rcases ih ys with h' | h'
        · left; simp [lexLe, h']
        · right; simp [lexLe, h']
      · right; simp [lexLe, h]

theorem lexLe_antisymm {a b : List Nat} (h1 : lexLe a b = true)
    (h2 : lexLe b a = true) : a = b := by
  induction a generalizing b with
  | nil =>
    cases b with
    | nil => rfl
    | cons y ys => simp [lexLe] at h2
  | cons x xs ih =>
    cases b with
    | nil => simp [lexLe] at h1
    | cons y ys =>
      rcases Nat.lt_trichotomy x y with h | h | h
      · simp [lexLe, h, Nat.not_lt.mpr (Nat.le_of_lt h), Nat.lt_irrefl] at h2
      · subst h
        simp only [lexLe, Nat.lt_irrefl, if_false] at h1 h2
        exact congrArg (x :: ·) (ih h1 h2)
      · simp [lexLe, h, Nat.not_lt.mpr (Nat.le_of_lt h), Nat.lt_irrefl] at h1

theorem lexLe_trans {a b c : List Nat} (h1 : lexLe a b = true)
    (h2 : lexLe b c = true) : lexLe a c = true := by
  induction a generalizing b c with
  | nil => rfl
  | cons x xs ih =>
    cases b with
    | nil => simp [lexLe] at h1
    | cons y ys =>
      cases c with
      | nil => simp [lexLe] at h2
      | cons z zs =>
        simp only [lexLe] at h1 h2 ⊢
        rcases Nat.lt_trichotomy x y with hxy | hxy | hxy
        · rcases Nat.lt_trichotomy y z with hyz | hyz | hyz
          · simp [Nat.lt_trans hxy hyz]
          · subst hyz; simp [hxy]
          · simp [hyz, Nat.not_lt.mpr (Nat.le_of_lt hyz), Nat.lt_irrefl] at h2
        · subst hxy
          rcases Nat.lt_trichotomy x z with hyz | hyz | hyz
          · simp [hyz]
          · subst hyz
            simp only [Nat.lt_irrefl, if_false] at h1 h2 ⊢
            exact ih h1 h2
          · simp [hyz, Nat.not_lt.mpr (Nat.le_of_lt hyz), Nat.lt_irrefl] at h2
        · simp [hxy, Nat.not_lt.mpr (Nat.le_of_lt hxy), Nat.lt_irrefl] at h1

instance : IsTotal (List Nat) LexLe := ⟨lexLe_total⟩

instance : IsTrans (List Nat) LexLe := ⟨fun _ _ _ => lexLe_trans⟩

instance : IsAntisymm (List Nat) LexLe := ⟨fun _ _ => lexLe_antisymm⟩


/-! ### Sorted-union facts for the pipeline -/

theorem sortedUnion_sorted (l : List (List Nat)) :
    List.Sorted LexLe (sortedUnion l) :=
  List.sorted_insertionSort LexLe l.dedup

theorem sortedUnion_nodup (l : List (List Nat)) : (sortedUnion l).Nodup :=
  ((List.perm_insertionSort LexLe l.dedup).nodup_iff).mpr (List.nodup_dedup l)

/-- The reduce/sort tail of the pipeline is invariant under any reordering
of the incoming per-blob candidate multiset. -/
theorem sortedUnion_perm_eq {l₁ l₂ : List (List Nat)} (h : l₁.Perm l₂) :
    sortedUnion l₁ = sortedUnion l₂ :=
  List.eq_of_perm_of_sorted
    ((List.perm_insertionSort LexLe l₁.dedup).trans
      (h.dedup.trans (List.perm_insertionSort LexLe l₂.dedup).symm))
    (sortedUnion_sorted l₁) (sortedUnion_sorted l₂)

theorem mem_parse_all_blobs {c blob : List Nat} {blobs : List (List Nat)}
    (hb : blob ∈ blobs) (hc : c ∈ Extractor_unique blob) :
    c ∈ parse_all_blobs blobs := by
  have h1 : c ∈ allCandidates blobs :=
    List.mem_flatten.mpr ⟨Extractor_unique blob, List.mem_map_of_mem _ hb, hc⟩
  exact ((List.perm_insertionSort LexLe _).mem_iff).mpr (List.mem_dedup.mpr h1)

/-! ### The claims -/

/-- C1: for every list of content sources, the sequence returned by
`parse_candidate_strings_from_files` (via `parse_all_blobs`) contains no
duplicate strings and is sorted ascending by byte value. -/
theorem c1_output_nodup_and_sorted (debugVar : Option String)
    (fs : String → Option (List Nat)) (cc : List ChangedContent) :
    (parse_candidate_strings_from_files debugVar fs cc).1.Nodup ∧
    List.Sorted LexLe (parse_candidate_strings_from_files debugVar fs cc).1 :=
  ⟨sortedUnion_nodup _, sortedUnion_sorted _⟩

/-- C3: the public operation is deterministic despite internal parallel
scheduling: any run whose unordered parallel reduce delivers the per-blob
candidate multiset in any order (any permutation `l` of it) produces
exactly the output of `parse_candidate_strings_from_files`, so two runs on
identical input lists yield identical sorted output sequences. -/
theorem c3_deterministic_output (debugVar : Option String)
    (fs : String → Option (List Nat)) (cc : List ChangedContent)
    (l : List (List Nat))
    (h : l.Perm (allCandidates (read_all_files fs cc))) :
    sortedUnion l = (parse_candidate_strings_from_files debugVar fs cc).1 :=
  sortedUnion_perm_eq h

theorem c3_deterministic_output_witness :
    ((allCandidates (read_all_files (fun _ => none)
        [⟨none, some [98, 32, 97], "html"⟩])).reverse).Perm
      (allCandidates (read_all_files (fun _ => none)
        [⟨none, some [98, 32, 97], "html"⟩])) ∧
    sortedUnion ((allCandidates (read_all_files (fun _ => none)
        [⟨none, some [98, 32, 97], "html"⟩])).reverse) =
      (parse_candidate_strings_from_files none (fun _ => none)
        [⟨none, some [98, 32, 97], "html"⟩]).1 :=
  ⟨List.reverse_perm _,
    c3_deterministic_output none (fun _ => none)
      [⟨none, some [98, 32, 97], "html"⟩] _ (List.reverse_perm _)⟩

/-- C9: the `DEBUG` environment toggle influences logging only: the
candidate sequence returned by `parse_candidate_strings_from_files` is the
same for any two settings of the toggle. -/
theorem c9_debug_toggle_does_not_affect_output (d1 d2 : Option String)
    (fs : String → Option (List Nat)) (cc : List ChangedContent) :
    (parse_candidate_strings_from_files d1 fs cc).1 =
      (parse_candidate_strings_from_files d2 fs cc).1 := rfl

/-- C5: a source whose file cannot be read, or one violating the
exactly-one-of-file/content contract, degrades to an empty blob for that
source only; no error propagates, and candidates found in every other
source still appear in the final result. -/
theorem c5_partial_failure_degrades_locally (debugVar : Option String)
    (fs : String → Option (List Nat)) (cc : List ChangedContent)
    (i : Nat) (src : ChangedContent) (hsrc : cc[i]? = some src)
    (hbad : (∃ f, src.file = some f ∧ fs f = none) ∨
      (src.file = none ∧ src.content = none) ∨
      (src.file.isSome = true ∧ src.content.isSome = true)) :
    (read_all_files fs cc)[i]? = some [] ∧
    ∀ (j : Nat) (srcj : ChangedContent) (c : List Nat), cc[j]? = some srcj →
      c ∈ Extractor_unique (readOne fs srcj) →
      c ∈ (parse_candidate_strings_from_files debugVar fs cc).1 := by
  constructor
  · have hempty : readOne fs src = [] := by
      rcases src with ⟨file, content, ext⟩
      rcases file with _ | f <;> rcases content with _ | cnt <;>
        simp [readOne] at hbad ⊢
      rw [hbad]
      rfl
    rw [read_all_files, List.getElem?_map, hsrc, Option.map_some', hempty]
  · intro j srcj c hj hcmem
    exact mem_parse_all_blobs (List.mem_map_of_mem _ (List.getElem?_mem hj)) hcmem

theorem c5_partial_failure_degrades_locally_witness :
    (([⟨some "missing", none, "txt"⟩,
        ⟨none, some [102, 108, 101, 120], "html"⟩] :
          List ChangedContent)[0]? = some ⟨some "missing", none, "txt"⟩) ∧
    ((∃ f, (some "missing" : Option String) = some f ∧
        (fun _ => (none : Option (List Nat))) f = none) ∨
      ((some "missing" : Option String) = none ∧
        (none : Option (List Nat)) = none) ∨
      ((some "missing" : Option String).isSome = true ∧
        (none : Option (List Nat)).isSome = true)) ∧
    ((read_all_files (fun _ => none)
        [⟨some "missing", none, "txt"⟩,
          ⟨none, some [102, 108, 101, 120], "html"⟩])[0]? = some [] ∧
      ∀ (j : Nat) (srcj : ChangedContent) (c : List Nat),
        ([⟨some "missing", none, "txt"⟩,
          ⟨none, some [102, 108, 101, 120], "html"⟩] :
            List ChangedContent)[j]? = some srcj →
        c ∈ Extractor_unique (readOne (fun _ => none) srcj) →
        c ∈ (parse_candidate_strings_from_files none (fun _ => none)
          [⟨some "missing", none, "txt"⟩,
            ⟨none, some [102, 108, 101, 120], "html"⟩]).1) :=
  ⟨rfl, .inl ⟨"missing", rfl, rfl⟩,
    c5_partial_failure_degrades_locally none (fun _ => none) _ 0 _ rfl
      (.inl ⟨"missing", rfl, rfl⟩)⟩

/-- C2 as stated is refuted: the blob `a[ÿ]` (`[97, 91, 255, 93]`, with a
raw `0xFF` byte inside the bracket span) is accepted as one candidate that
is not valid UTF-8, because inside an unmatched `[` every byte continues
the candidate. -/
theorem c2_counterexample :
    Extractor_unique [97, 91, 255, 93] = [[97, 91, 255, 93]] ∧
    validUtf8 [97, 91, 255, 93] = false := by decide

/-- C2 (amended): for every input whose resolved blobs are themselves valid
UTF-8, every candidate in the output of `parse_candidate_strings_from_files`
is valid UTF-8, so the unchecked `String::from_utf8_unchecked`
reinterpretation is applied only to valid UTF-8. -/
theorem c2_candidates_valid_utf8 (debugVar : Option String)
    (fs : String → Option (List Nat)) (cc : List ChangedContent)
    (h : ∀ blob ∈ read_all_files fs cc, validUtf8 blob = true) :
    ∀ c ∈ (parse_candidate_strings_from_files debugVar fs cc).1,
      validUtf8 c = true := by
  intro c hc
  have h1 : c ∈ allCandidates (read_all_files fs cc) :=
    List.mem_dedup.mp (((List.perm_insertionSort LexLe _).mem_iff).mp hc)
  rcases List.mem_flatten.mp h1 with ⟨l, hl, hcl⟩
  rcases List.mem_map.mp hl with ⟨blob, hblob, rfl⟩
  rw [Extractor_unique, List.mem_dedup] at hcl
  exact extract_valid blob none .start (h blob hblob) trivial c hcl

theorem c2_candidates_valid_utf8_witness :
    (∀ blob ∈ read_all_files (fun _ => none)
        [⟨none, some [102, 108, 101, 120], "html"⟩], validUtf8 blob = true) ∧
    ∀ c ∈ (parse_candidate_strings_from_files none (fun _ => none)
        [⟨none, some [102, 108, 101, 120], "html"⟩]).1, validUtf8 c = true :=
  ⟨by decide,
    c2_candidates_valid_utf8 none (fun _ => none)
      [⟨none, some [102, 108, 101, 120], "html"⟩] (by decide)⟩

/-- C4: a blob containing the bytes of `bg-[url('a b]c.png')]` yields that
single candidate: the extractor splits neither at the interior space nor at
the interior `]`, because the quote opened inside the unmatched `[` makes
even `]` inert until the matching quote closes. -/
theorem c4_bracket_quote_awareness :
    Extractor_unique
        [98, 103, 45, 91, 117, 114, 108, 40, 39, 97, 32, 98, 93, 99, 46,
          112, 110, 103, 39, 41, 93] =
      [[98, 103, 45, 91, 117, 114, 108, 40, 39, 97, 32, 98, 93, 99, 46,
        112, 110, 103, 39, 41, 93]] := by decide

/-! ### Resolver facts -/

theorem insertStr_ne_nil (x : String) (l : List String) : insertStr x l ≠ [] := by
  cases l with
  | nil => simp [insertStr]
  | cons y ys =>
    simp only [insertStr]
    split
    · simp
    · split <;> simp

theorem insertGroup_snd_ne_nil (parent : List String) (ext : String)
    (gs : List (List String × List String)) (hgs : ∀ g ∈ gs, g.2 ≠ []) :
    ∀ g ∈ insertGroup parent ext gs, g.2 ≠ [] := by
  induction gs with
  | nil =>
    intro g hg
    simp only [insertGroup, List.mem_singleton] at hg
    subst hg
    simp
  | cons hd tl ih =>
    rcases hd with ⟨p, es⟩
    intro g hg
    simp only [insertGroup] at hg
    split at hg
    · rcases List.mem_cons.mp hg with h | h
      · subst h
        exact insertStr_ne_nil ext es
      · exact hgs g (List.mem_cons_of_mem _ h)
    · split at hg
      · rcases List.mem_cons.mp hg with h | h
        · subst h; simp
        · exact hgs g h
      · rcases List.mem_cons.mp hg with h | h
        · subst h
          exact hgs ⟨p, es⟩ (List.mem_cons_self _ _)
        · exact ih (fun g' hg' => hgs g' (List.mem_cons_of_mem _ hg')) g h

theorem foldl_insertGroup_snd_ne_nil (ents : List FileEnt) :
    ∀ (gs : List (List String × List String)), (∀ g ∈ gs, g.2 ≠ []) →
    ∀ g ∈ ents.foldl
      (fun gs e => insertGroup e.parent ((rsExtension e.fname).getD "") gs) gs,
      g.2 ≠ [] := by
  induction ents with
  | nil => intro gs hgs g hg; exact hgs g hg
  | cons e tl ih =>
    intro gs hgs g hg
    exact ih _ (insertGroup_snd_ne_nil _ _ _ hgs) g hg

theorem contentGroups_snd_ne_nil (tbl : PolicyTables) (walked : List FileEnt) :
    ∀ g ∈ contentGroups tbl walked, g.2 ≠ [] :=
  foldl_insertGroup_snd_ne_nil _ [] (by simp)

theorem emitGroup_eq_spec (root : List String) (g : List String × List String)
    (h : g.2 ≠ []) : emitGroup root g = [specGlobPattern root g.1 g.2] := by
  rcases g with ⟨dir, exts⟩
  match exts with
  | [] => exact absurd rfl h
  | [e] => rfl
  | e1 :: e2 :: es => rfl

theorem map_emit_flatten (root : List String)
    (gs : List (List String × List String)) (h : ∀ g ∈ gs, g.2 ≠ []) :
    ((gs.map (emitGroup root)).flatten) =
      gs.map (fun g => specGlobPattern root g.1 g.2) := by
  induction gs with
  | nil => rfl
  | cons g tl ih =>
    simp only [List.map_cons, List.flatten_cons,
      emitGroup_eq_spec root g (h g (List.mem_cons_self _ _)),
      ih (fun g' hg' => h g' (List.mem_cons_of_mem _ hg'))]
    rfl

/-- C6: `resolve_content_paths` emits exactly one glob pattern per
directory group, of the shape the spec prescribes (root directories get a
non-recursive `*` segment, other directories `**/*`, several extensions a
brace-alternation list in lexicographic order); in particular a root `src`
containing `src/a.js`, `src/b.js`, `src/sub/c.ts` yields exactly the
patterns `src/*.js` and `src/sub/**/*.ts`. -/
theorem c6_one_pattern_per_group :
    (∀ (tbl : PolicyTables) (root : List String) (walked : List FileEnt),
      resolve_content_paths tbl root walked =
        (contentGroups tbl walked).map
          (fun g => specGlobPattern root g.1 g.2)) ∧
    resolve_content_paths specTables ["src"]
        [⟨["src"], "a.js"⟩, ⟨["src"], "b.js"⟩, ⟨["src", "sub"], "c.ts"⟩] =
      ["src/*.js", "src/sub/**/*.ts"] := by
  constructor
  · intro tbl root walked
    exact map_emit_flatten root _ (contentGroups_snd_ne_nil tbl walked)
  · decide

/-- C7: for a path with a file-name component, `is_allowed_content_path`
returns `false` exactly when the file name is in the ignored-file table, or
the extension is missing, or the extension is in the ignored-extension or
binary-extension table; every other such path is accepted (a boolean is
always returned). -/
theorem c7_is_allowed_iff (tbl : PolicyTables) (p : RsPath) (f : String)
    (h : p.fname = some f) :
    (is_allowed_content_path tbl p = some false ↔
      f ∈ tbl.ignoredFiles ∨ rsExtension f = none ∨
        ∃ e, rsExtension f = some e ∧
          (e ∈ tbl.ignoredExtensions ∨ e ∈ tbl.binaryExtensions)) ∧
    ∃ b, is_allowed_content_path tbl p = some b := by
  have hcm : ∀ (l : List String) (a : String), l.contains a = true ↔ a ∈ l :=
    fun l a => List.elem_iff
  refine ⟨?_, ?_⟩
  · simp only [is_allowed_content_path, h, is_allowed_file]
    by_cases hf : tbl.ignoredFiles.contains f = true
    · simp [hf, (hcm _ _).mp hf]
    · have hfm : f ∉ tbl.ignoredFiles := fun hm => hf ((hcm _ _).mpr hm)
      cases hre : rsExtension f with
      | none => simp [hf, hre, hfm]
      | some e =>
        by_cases hie : e ∈ tbl.ignoredExtensions
        · simp [hf, hre, hfm, hie, (hcm _ _).mpr hie]
        · have hie' : tbl.ignoredExtensions.contains e = false := by
            rcases hb : tbl.ignoredExtensions.contains e with _ | _
            · rfl
            · exact absurd ((hcm _ _).mp hb) hie
          by_cases hbe : e ∈ tbl.binaryExtensions
          · simp [hf, hre, hfm, hie, hie', hbe, (hcm _ _).mpr hbe]
          · have hbe' : tbl.binaryExtensions.contains e = false := by
              rcases hb : tbl.binaryExtensions.contains e with _ | _
              · rfl
              · exact absurd ((hcm _ _).mp hb) hbe
            simp [hf, hre, hfm, hie, hie', hbe, hbe']
  · exact ⟨is_allowed_file tbl f, by simp [is_allowed_content_path, h]⟩

theorem c7_is_allowed_iff_witness :
    (⟨["root"], some "img.png"⟩ : RsPath).fname = some "img.png" ∧
    ((is_allowed_content_path specTables ⟨["root"], some "img.png"⟩ =
        some false ↔
      "img.png" ∈ specTables.ignoredFiles ∨ rsExtension "img.png" = none ∨
        ∃ e, rsExtension "img.png" = some e ∧
          (e ∈ specTables.ignoredExtensions ∨
            e ∈ specTables.binaryExtensions)) ∧
    ∃ b, is_allowed_content_path specTables ⟨["root"], some "img.png"⟩ =
      some b) :=
  ⟨rfl, c7_is_allowed_iff specTables ⟨["root"], some "img.png"⟩ "img.png" rfl⟩

/-- C8 as stated is refuted: a directory whose name is the single byte
`0xFF` (not valid UTF-8, and not `.git`) is also pruned by the walk's
`filter_entry` closure, because `to_str()` fails and the closure's
`unwrap_or(false)` drops the entry. -/
theorem c8_counterexample :
    walkDirKept [255] = false ∧ [255] ≠ [46, 103, 105, 116] := by decide

/-- C8 (amended): among directories, the `filter_entry` closure prunes
exactly the directory literally named `.git` and every directory whose
name is not valid UTF-8 (hidden entries are not otherwise skipped because
the walk is built with `.hidden(false)`; ignore-rule pruning happens in
the external walker). -/
theorem c8_dir_prune_iff (name : List Nat) :
    walkDirKept name = false ↔
      name = [46, 103, 105, 116] ∨ validUtf8 name = false := by
  cases hv : validUtf8 name <;> simp [walkDirKept, hv]

/-- C10: `is_allowed_content_path` is partial at its interface: it panics
(modelled as `none`) exactly on paths without a final file-name component,
and returns a boolean on every path that has one. -/
theorem c10_panic_iff_no_file_name (tbl : PolicyTables) (p : RsPath) :
    is_allowed_content_path tbl p = none ↔ p.fname = none := by
  cases h : p.fname <;> simp [is_allowed_content_path, h]

end Tailwind
